import Mathlib

/-!
Verification of the dendrite-pulse `files` package: path resolution scoped to
configured roots (`internal/files`), metadata extraction, and the list/sort/
paginate query engine of the HTTP handler.

Modelling conventions:
* A path segment is a `List Char`; an absolute path is a `List` of clean
  segments (the canonical form produced by `filepath.Clean` on the Go side).
* Relative paths arrive as raw `String`s, exactly as in the Go API, and are
  split/cleaned by functions mirroring `strings.Split`, `path.Clean` and
  `cleanRelativePath` from the source.
* The filesystem is an association list from canonical absolute paths to
  `FileInfo`. `os.Lstat` is `lookupFs`; `filepath.EvalSymlinks` is the
  fuel-bounded `evalSymlinks` (the fuel mirrors the stdlib's link-hop cap).
* Platform functions outside the repository (content sniffing,
  user/group database lookups) are parameters collected in `SysEnv`.
* Machine integers (`int64` sizes, unix-nano timestamps) are modelled as `Int`;
  the values involved never approach the overflow boundary.
-/

namespace DendritePulse

/-- A path segment (one component between slashes). -/
abbrev Seg := List Char

/-- A canonical absolute path, as a list of segments. -/
abbrev AbsPath := List Seg

/-- `strings.Split(rel, "/")`: split a character list on `'/'`, keeping empty
segments, always returning at least one (possibly empty) segment. -/
def splitSlash : List Char → List Seg
  | [] => [[]]
  | c :: cs =>
    match splitSlash cs with
    | [] => [[]]
    | s :: ss => if c = '/' then [] :: s :: ss else (c :: s) :: ss

/-- `hasTraversal` from the source: true iff any `/`-separated segment of the
raw relative path is the literal `..`. -/
def hasTraversal (rel : String) : Bool :=
  (splitSlash rel.data).any (fun part => part = ['.', '.'])

/-- `path.Clean("/" + rel)`, restricted to the rooted case, returned as the
segment stack (without the leading slash): empty and `.` segments are dropped,
`..` pops the stack (and is dropped at the root, as for rooted paths). -/
def pathClean (segs : List Seg) : List Seg :=
  segs.foldl
    (fun acc seg =>
      if seg = [] ∨ seg = ['.'] then acc
      else if seg = ['.', '.'] then acc.dropLast
      else acc ++ [seg])
    []

/-- Errors of the files service (identified up to `errors.Is`, as the Go code
wraps them with context strings). -/
inductive FsError where
  | rootNotFound
  | outsideRoot
  | statErr
  | notADirectory
  | invalidParam
  deriving DecidableEq, Repr

/-- `cleanRelativePath` from the source: reject any literal `..` segment with
`ErrOutsideRoot`, otherwise clean the rooted path and strip the leading slash
(the cleaned form is represented as the segment list). -/
def cleanRelativePath (rel : String) : Except FsError (List Seg) :=
  if hasTraversal rel then .error .outsideRoot
  else
    let cleaned := pathClean (splitSlash rel.data)
    -- Go: strings.HasPrefix(cleaned, "/../") || cleaned == "/.."
    if cleaned.head? = some ['.', '.'] then .error .outsideRoot
    else .ok cleaned

/-- `Root` from the source; `source` is already canonical (the constructor runs
`filepath.EvalSymlinks` + `filepath.Clean` on it). -/
structure Root where
  virtual : String
  source : AbsPath
  deriving DecidableEq, Repr

/-- The `Service` holds the ordered roots; the `roots` map is modelled by
lookup over `ordered`, which agrees with the map because the constructor
rejects duplicate virtual names. -/
structure Service where
  ordered : List Root
  deriving DecidableEq, Repr

def kindFile : String := "file"
def kindFolder : String := "folder"
def kindSymlink : String := "symlink"

/-- The entry type recorded by `lstat`: the mode's directory / symlink bits. -/
inductive EntryType where
  | file
  | dir
  | symlink (target : AbsPath)
  deriving DecidableEq, Repr

/-- The `syscall.Stat_t` attributes the service reads (ownership and times;
birth time is optional, mirroring the platform-conditional `extractTimes`). -/
structure StatT where
  uid : Nat
  gid : Nat
  atime : Int
  mtime : Int
  ctime : Int
  btime : Option Int
  deriving DecidableEq, Repr

/-- An `os.FileInfo` as seen by the service.  `sys` is `info.Sys()` viewed as a
`*syscall.Stat_t` (`none` models a failed type assertion); `content` models
the readable bytes of a regular file, `none` being an open/read failure. -/
structure FileInfo where
  type : EntryType
  size : Int
  perm : Nat
  sys : Option StatT
  content : Option (List Nat)
  deriving DecidableEq, Repr

/-- The filesystem: canonical absolute path → file info. -/
abbrev Fs := List (AbsPath × FileInfo)

/-- `os.Lstat` on a canonical path. -/
def lookupFs (fs : Fs) (p : AbsPath) : Option FileInfo :=
  (fs.find? (fun e => e.1 = p)).map (·.2)

/-- `filepath.EvalSymlinks`: follow the symlink chain to its final real path,
with a hop bound as in the stdlib; errors on a missing entry or on exhausting
the bound. -/
def evalSymlinks (fs : Fs) (p : AbsPath) : Nat → Except FsError AbsPath
  | 0 => .error .statErr
  | fuel + 1 =>
    match lookupFs fs p with
    | some info =>
      match info.type with
      | .symlink target => evalSymlinks fs target fuel
      | _ => .ok p
    | none => .error .statErr

/-- `classify` from the source: directory → folder, symlink bit → symlink,
otherwise file. -/
def classify (info : FileInfo) : String :=
  match info.type with
  | .dir => kindFolder
  | .symlink _ => kindSymlink
  | .file => kindFile

/-- Drop the longest common leading run of two segment lists, returning the
remainders (the core of `filepath.Rel` for clean absolute paths). -/
def dropCommonPre : AbsPath → AbsPath → AbsPath × AbsPath
  | [], ts => ([], ts)
  | rs, [] => (rs, [])
  | r :: rs, t :: ts =>
    if r = t then dropCommonPre rs ts else (r :: rs, t :: ts)

/-- `filepath.Rel(root, target)` for clean absolute paths: one `..` per
remaining root segment, then the remaining target segments. -/
def relSegments (root target : AbsPath) : List Seg :=
  (dropCommonPre root target).1.map (fun _ => ['.', '.']) ++
    (dropCommonPre root target).2

/-- `ensureWithinRoot` from the source: fail with `ErrOutsideRoot` iff the
relative form of `target` w.r.t. `root` starts with a `..` step. -/
def ensureWithinRoot (root target : AbsPath) : Except FsError Unit :=
  if (relSegments root target).head? = some ['.', '.'] then .error .outsideRoot
  else .ok ()

/-- Join segments with `'/'` separators (character-list form). -/
def charJoin : List Seg → List Char
  | [] => []
  | s :: rest =>
    match rest with
    | [] => s
    | _ => s ++ '/' :: charJoin rest

/-- Render clean segments back to the relative-path string (inverse of
splitting, for segments containing no slash). -/
def segsToRel (segs : List Seg) : String :=
  ⟨charJoin segs⟩

/-- `joinVirtual` from the source: `path.Join(virtual, rel)` for a clean rooted
virtual name and clean relative segments. -/
def joinVirtual (virtual : String) (rel : List Seg) : String :=
  match rel with
  | [] => virtual
  | _ => (if virtual = "/" then "" else virtual) ++ "/" ++ segsToRel rel

/-- `strings.HasPrefix(s, "/")`. -/
def startsWithSlash (s : String) : Bool :=
  s.data.head? = some '/'

/-- `strings.TrimPrefix(s, "/")`. -/
def trimLeadingSlash (s : String) : String :=
  if startsWithSlash s then ⟨s.data.tail⟩ else s

/-- `entryName` from the source: the root's display name for the root itself,
else `path.Base` of the clean relative path. -/
def entryName (root : Root) (rel : List Seg) : String :=
  match rel.getLast? with
  | none => if root.virtual = "/" then "/" else trimLeadingSlash root.virtual
  | some s => ⟨s⟩

/-- Platform services used by metadata extraction: `http.DetectContentType`
and the `os/user` UID/GID name lookups (`none` = lookup error). -/
structure SysEnv where
  sniff : List Nat → String
  lookupUser : Nat → Option String
  lookupGroup : Nat → Option String

/-- `strconvOrEmpty` from the source: empty string for 0, else `%d`. -/
def strconvOrEmpty (v : Nat) : String :=
  if v = 0 then "" else Nat.repr v

/-- `ownership` from the source: `(uid, gid, userName, groupName)`; the name
lookups overwrite the `strconvOrEmpty` fallback only when they succeed. -/
def ownership (env : SysEnv) (info : FileInfo) : Nat × Nat × String × String :=
  match info.sys with
  | none => (0, 0, "", "")
  | some stat =>
    let uid := stat.uid
    let gid := stat.gid
    let userName :=
      match env.lookupUser uid with
      | some u => u
      | none => strconvOrEmpty uid
    let groupName :=
      match env.lookupGroup gid with
      | some g => g
      | none => strconvOrEmpty gid
    (uid, gid, userName, groupName)

/-- `fileTimes` from the source (times via `extractTimes`; access/modify/change
always present once the stat cast succeeds, birth only when the platform
exposes it). -/
def fileTimes (info : FileInfo) :
    Option Int × Option Int × Option Int × Option Int :=
  match info.sys with
  | none => (none, none, none, none)
  | some stat => (some stat.atime, some stat.mtime, some stat.ctime, stat.btime)

/-- `pointerSize` from the source: the target's size for kind `file`, absent
otherwise. -/
def pointerSize (info : FileInfo) (kind : String) : Option Int :=
  if kind = kindFile then some info.size else none

/-- `mimeFor` from the source: sentinel tokens for folder and symlink kinds;
for files, open and read up to 512 bytes and sniff, degrading any open/read
failure to the empty string. -/
def mimeFor (env : SysEnv) (fs : Fs) (kind : String) (absPath : AbsPath) : String :=
  if kind = kindFolder then "inode/directory"
  else if kind = kindSymlink then "inode/symlink"
  else
    match lookupFs fs absPath with
    | none => ""
    | some info =>
      match info.content with
      | none => ""
      | some bytes => env.sniff (bytes.take 512)

/-- One octal digit. -/
def octDigit (n : Nat) : Char :=
  Char.ofNat (48 + n % 8)

/-- `fmt.Sprintf("%04o", m)` for `m < 0o10000`. -/
def octal4 (m : Nat) : String :=
  ⟨[octDigit (m / 512), octDigit (m / 64), octDigit (m / 8), octDigit m]⟩

/-- `Metadata` from the source. -/
structure Metadata where
  name : String
  virtualPath : String
  resourceKind : String
  sizeBytes : Option Int
  permissionMode : String
  user : String
  group : String
  userID : Nat
  groupID : Nat
  mimeType : String
  accessedAt : Option Int
  modifiedAt : Option Int
  changedAt : Option Int
  bornAt : Option Int
  deriving DecidableEq, Repr

def emptyMetadata : Metadata :=
  { name := "", virtualPath := "", resourceKind := "", sizeBytes := none,
    permissionMode := "", user := "", group := "", userID := 0, groupID := 0,
    mimeType := "", accessedAt := none, modifiedAt := none, changedAt := none,
    bornAt := none }

/-- `Descriptor` from the source. -/
structure Descriptor where
  root : Root
  virtualPath : String
  relPath : List Seg
  name : String
  kind : String
  targetKind : String
  absolutePath : AbsPath
  linkPath : AbsPath
  metadata : Metadata
  deriving DecidableEq, Repr

/-- `metadataFromInfo` from the source: size keyed on the descriptor's own
`kind`, MIME keyed on its `targetKind`, mode masked to the permission bits. -/
def metadataFromInfo (env : SysEnv) (fs : Fs) (desc : Descriptor)
    (info : FileInfo) : Metadata :=
  let mode := info.perm % 512
  let sizeBytes := pointerSize info desc.kind
  let own := ownership env info
  let times := fileTimes info
  let mimeType := mimeFor env fs desc.targetKind desc.absolutePath
  { name := desc.name
    virtualPath := desc.virtualPath
    resourceKind := desc.kind
    sizeBytes := sizeBytes
    permissionMode := octal4 mode
    user := own.2.2.1
    group := own.2.2.2
    userID := own.1
    groupID := own.2.1
    mimeType := mimeType
    accessedAt := times.1
    modifiedAt := times.2.1
    changedAt := times.2.2.1
    bornAt := times.2.2.2 }

/-- The stdlib's symlink-hop bound used by `filepath.EvalSymlinks`. -/
def maxLinkHops : Nat := 255

/-- `describe` from the source: clean the relative path, lstat and classify the
candidate, resolve and containment-check symlinks, then extract metadata from
the target info. -/
def describe (env : SysEnv) (fs : Fs) (root : Root) (rel : String) :
    Except FsError Descriptor :=
  match cleanRelativePath rel with
  | .error e => .error e
  | .ok relClean =>
    let virtualPath := joinVirtual root.virtual relClean
    let absPath := root.source ++ relClean
    match lookupFs fs absPath with
    | none => .error .statErr
    | some info =>
      let kind := classify info
      let desc : Descriptor :=
        { root := root, relPath := relClean, name := entryName root relClean,
          kind := kind, targetKind := kind, linkPath := absPath,
          virtualPath := virtualPath, absolutePath := absPath,
          metadata := emptyMetadata }
      if kind = kindSymlink then
        match evalSymlinks fs absPath maxLinkHops with
        | .error e => .error e
        | .ok resolved =>
          match ensureWithinRoot root.source resolved with
          | .error e => .error e
          | .ok _ =>
            match lookupFs fs resolved with
            | none => .error .statErr
            | some tInfo =>
              let desc := { desc with absolutePath := resolved,
                                      targetKind := classify tInfo }
              .ok { desc with metadata := metadataFromInfo env fs desc tInfo }
      else
        .ok { desc with metadata := metadataFromInfo env fs desc info }

/-- `lookupRoot` from the source: prepend a missing leading slash, then look
the virtual name up in the root map. -/
def lookupRoot (svc : Service) (virtual : String) : Option Root :=
  let v := if startsWithSlash virtual then virtual else "/" ++ virtual
  svc.ordered.find? (fun r => r.virtual = v)

/-- `Service.Describe`. -/
def serviceDescribe (env : SysEnv) (fs : Fs) (svc : Service)
    (virtual rel : String) : Except FsError Descriptor :=
  match lookupRoot svc virtual with
  | none => .error .rootNotFound
  | some root => describe env fs root rel

/-- `os.ReadDir`: the names of the direct children of a canonical directory
path (enumeration order follows the filesystem representation). -/
def readDir (fs : Fs) (p : AbsPath) : List Seg :=
  fs.filterMap
    (fun e =>
      match e.1.getLast? with
      | some n => if e.1.dropLast = p then some n else none
      | none => none)

/-- The child-resolution loop of `ListDirectory` (cancellation is not
modelled; no claim concerns it). -/
def listChildren (env : SysEnv) (fs : Fs) (root : Root) (relClean : List Seg) :
    List Seg → Except FsError (List Descriptor)
  | [] => .ok []
  | n :: ns =>
    match describe env fs root (segsToRel (relClean ++ [n])) with
    | .error e => .error e
    | .ok d =>
      match listChildren env fs root relClean ns with
      | .error e => .error e
      | .ok ds => .ok (d :: ds)

/-- `ListDirectory`'s body once the root is known: clean, describe the parent,
require a folder target, then resolve each child. -/
def listDirectoryRoot (env : SysEnv) (fs : Fs) (root : Root) (rel : String) :
    Except FsError (List Descriptor) :=
  match cleanRelativePath rel with
  | .error e => .error e
  | .ok relClean =>
    match describe env fs root (segsToRel relClean) with
    | .error e => .error e
    | .ok parentDesc =>
      if parentDesc.targetKind = kindFolder then
        listChildren env fs root relClean (readDir fs parentDesc.absolutePath)
      else .error .notADirectory

/-- `Service.ListDirectory`. -/
def serviceListDirectory (env : SysEnv) (fs : Fs) (svc : Service)
    (virtual rel : String) : Except FsError (List Descriptor) :=
  match lookupRoot svc virtual with
  | none => .error .rootNotFound
  | some root => listDirectoryRoot env fs root rel

/-- `Service.ListRoots`: one `describe(root, "")` per configured root. -/
def listRootsSvc (env : SysEnv) (fs : Fs) :
    List Root → Except FsError (List Descriptor)
  | [] => .ok []
  | r :: rs =>
    match describe env fs r "" with
    | .error e => .error e
    | .ok d =>
      match listRootsSvc env fs rs with
      | .error e => .error e
      | .ok ds => .ok (d :: ds)

/-- `HasSingleRootSlash` from the source. -/
def hasSingleRootSlash (svc : Service) : Bool :=
  svc.ordered.length == 1 && (svc.ordered.head?.map (·.virtual)) == some "/"

/-- The handler's top-level collection endpoint (`listRoots` in handler.go):
bypass to a direct directory listing in the single-slash-root case, else list
the configured roots. -/
def listRootsEndpoint (env : SysEnv) (fs : Fs) (svc : Service) :
    Except FsError (List Descriptor) :=
  if hasSingleRootSlash svc then serviceListDirectory env fs svc "/" ""
  else listRootsSvc env fs svc.ordered

/-! ### The List Query Engine of handler.go -/

def defaultLimit : Int := 200
def maxLimit : Int := 500

/-- `ListParams` from handler.go. -/
structure ListParams where
  limit : Int
  offset : Int
  sortField : String
  descending : Bool
  deriving DecidableEq, Repr

/-- The three query parameters the handler reads; `""` is an absent parameter,
exactly as `echo.Context.QueryParam` reports it. -/
structure Query where
  pageLimit : String
  pageOffset : String
  sort : String
  deriving DecidableEq, Repr

/-- Digit run of `strconv.Atoi`: every character must be a decimal digit. -/
def digitsToNat (acc : Nat) : List Char → Option Nat
  | [] => some acc
  | c :: cs =>
    if '0' ≤ c ∧ c ≤ '9' then digitsToNat (acc * 10 + (c.toNat - 48)) cs
    else none

/-- `strconv.Atoi`: optional sign followed by at least one digit.  The int64
range error is not modelled; every value a claim touches is tiny. -/
def atoi (s : String) : Option Int :=
  match s.data with
  | [] => none
  | '-' :: cs =>
    match cs with
    | [] => none
    | _ => (digitsToNat 0 cs).map (fun n => -(n : Int))
  | '+' :: cs =>
    match cs with
    | [] => none
    | _ => (digitsToNat 0 cs).map (fun n => (n : Int))
  | cs => (digitsToNat 0 cs).map (fun n => (n : Int))

/-- `validSortFields` from handler.go. -/
def validSortFields : List String :=
  ["name", "resource_kind", "size_bytes", "permission_mode", "user", "group",
   "user_id", "group_id", "mime_type", "accessed_at", "modified_at",
   "changed_at", "born_at"]

/-- `parseListParams` from handler.go: defaults 200 / 0 / ascending `name`;
limit must parse to an integer in `[1, 500]`, offset to a non-negative
integer; `sort` must be a single allow-listed field, optionally `-`-prefixed,
with comma-separated multi-field values rejected. -/
def parseListParams (q : Query) : Except FsError ListParams :=
  let params : ListParams :=
    { limit := defaultLimit, offset := 0, sortField := "name",
      descending := false }
  let step1 : Except FsError ListParams :=
    if q.pageLimit = "" then .ok params
    else
      match atoi q.pageLimit with
      | none => .error .invalidParam
      | some limit =>
        if limit < 1 then .error .invalidParam
        else if limit > maxLimit then .error .invalidParam
        else .ok { params with limit := limit }
  match step1 with
  | .error e => .error e
  | .ok params =>
    let step2 : Except FsError ListParams :=
      if q.pageOffset = "" then .ok params
      else
        match atoi q.pageOffset with
        | none => .error .invalidParam
        | some offset =>
          if offset < 0 then .error .invalidParam
          else .ok { params with offset := offset }
    match step2 with
    | .error e => .error e
    | .ok params =>
      if q.sort = "" then .ok params
      else if q.sort.data.contains ',' then .error .invalidParam
      else
        let descending := q.sort.data.head? = some '-'
        let field := if descending then (⟨q.sort.data.tail⟩ : String) else q.sort
        if validSortFields.contains field then
          .ok { params with sortField := field, descending := descending }
        else .error .invalidParam

/-- `comparePtrInt64` from handler.go: nil sorts before non-nil. -/
def comparePtrInt64 (a b : Option Int) : Bool :=
  match a, b with
  | none, none => false
  | none, some _ => true
  | some _, none => false
  | some x, some y => x < y

/-- `comparePtrTime` from handler.go (times as unix nanos): nil sorts before
non-nil, else `a.Before(b)`. -/
def comparePtrTime (a b : Option Int) : Bool :=
  match a, b with
  | none, none => false
  | none, some _ => true
  | some _, none => false
  | some x, some y => x < y

/-- Go's `<` on strings: lexicographic bytewise comparison, equivalently (for
UTF-8 data) lexicographic comparison of the codepoint sequences. -/
def charsLt : List Char → List Char → Bool
  | [], [] => false
  | [], _ :: _ => true
  | _ :: _, [] => false
  | a :: as, b :: bs =>
    if a.toNat < b.toNat then true
    else if b.toNat < a.toNat then false
    else charsLt as bs

def strLt (a b : String) : Bool := charsLt a.data b.data

/-- The per-field `less` of `sortDescriptors` (the body of the closure before
the direction flag is applied). -/
def fieldLess (field : String) (a b : Descriptor) : Bool :=
  match field with
  | "name" => strLt a.metadata.name b.metadata.name
  | "resource_kind" => strLt a.metadata.resourceKind b.metadata.resourceKind
  | "size_bytes" => comparePtrInt64 a.metadata.sizeBytes b.metadata.sizeBytes
  | "permission_mode" =>
    strLt a.metadata.permissionMode b.metadata.permissionMode
  | "user" => strLt a.metadata.user b.metadata.user
  | "group" => strLt a.metadata.group b.metadata.group
  | "user_id" => a.metadata.userID < b.metadata.userID
  | "group_id" => a.metadata.groupID < b.metadata.groupID
  | "mime_type" => strLt a.metadata.mimeType b.metadata.mimeType
  | "accessed_at" => comparePtrTime a.metadata.accessedAt b.metadata.accessedAt
  | "modified_at" => comparePtrTime a.metadata.modifiedAt b.metadata.modifiedAt
  | "changed_at" => comparePtrTime a.metadata.changedAt b.metadata.changedAt
  | "born_at" => comparePtrTime a.metadata.bornAt b.metadata.bornAt
  | _ => strLt a.metadata.name b.metadata.name

/-- The full comparator passed to `sort.SliceStable`: the boolean negation of
the ascending comparator when `descending` is set. -/
def descLess (field : String) (descending : Bool) (a b : Descriptor) : Bool :=
  if descending then !(fieldLess field a b) else fieldLess field a b

/-- Insert while the existing element is strictly `less`; the new element
lands before the first element not less than it, which is what a stable sort
does to an element originally preceding the rest. -/
def insertCmp (less : α → α → Bool) (x : α) : List α → List α
  | [] => [x]
  | y :: ys => if less y x then y :: insertCmp less x ys else x :: y :: ys

/-- Stable sort by a `less` comparator, modelling `sort.SliceStable` (for the
strict-weak-order comparators used here a stable sort's output is unique, so
insertion sort is observationally the stdlib sort). -/
def stableSort (less : α → α → Bool) : List α → List α
  | [] => []
  | x :: xs => insertCmp less x (stableSort less xs)

/-- `sortDescriptors` from handler.go. -/
def sortDescriptors (entries : List Descriptor) (field : String)
    (descending : Bool) : List Descriptor :=
  stableSort (descLess field descending) entries

/-- The pagination slice of `collectionResponse`:
`start = min(offset, total)`, `end = min(start+limit, total)`, page
`[start, end)`.  Offsets/limits are `Nat` here; `parseListParams` guarantees
non-negativity before this code runs. -/
def collectionPage (entries : List Descriptor) (limit offset : Nat) :
    List Descriptor :=
  let total := entries.length
  let start := if offset > total then total else offset
  let stop := if start + limit > total then total else start + limit
  (entries.drop start).take (stop - start)

/-- `sendCollectionJSON`'s data pipeline: stable-sort the whole set, then
slice the requested page. -/
def sendCollectionData (entries : List Descriptor) (field : String)
    (descending : Bool) (limit offset : Nat) : List Descriptor :=
  collectionPage (sortDescriptors entries field descending) limit offset

/-! ### Well-formedness of filesystem values

Real directory entries are nonempty names without `'/'`, and `os.ReadDir`
never reports `.` or `..`; `ValidFs` states this of the model filesystem. -/

def ValidSeg (s : Seg) : Prop :=
  s ≠ [] ∧ '/' ∉ s ∧ s ≠ ['.'] ∧ s ≠ ['.', '.']

instance (s : Seg) : Decidable (ValidSeg s) := by unfold ValidSeg; infer_instance

def ValidFs (fs : Fs) : Prop :=
  ∀ e ∈ fs, ∀ s ∈ e.1, ValidSeg s

instance (fs : Fs) : Decidable (ValidFs fs) := by unfold ValidFs; infer_instance

/-- The nullable sort fields of the spec (size and the four timestamps). -/
def nullableSortFields : List String :=
  ["size_bytes", "accessed_at", "modified_at", "changed_at", "born_at"]

/-- The nullable value a sort field reads from the metadata. -/
def nullableFieldVal (field : String) (m : Metadata) : Option Int :=
  match field with
  | "size_bytes" => m.sizeBytes
  | "accessed_at" => m.accessedAt
  | "modified_at" => m.modifiedAt
  | "changed_at" => m.changedAt
  | "born_at" => m.bornAt
  | _ => none

/-- The regular-file branch of `mimeFor`: open, read up to 512 bytes, sniff;
any failure degrades to the empty string. -/
def fileSniff (env : SysEnv) (fs : Fs) (absPath : AbsPath) : String :=
  match lookupFs fs absPath with
  | none => ""
  | some info =>
    match info.content with
    | none => ""
    | some bytes => env.sniff (bytes.take 512)

/-! ### Concrete fixtures used by witnesses and counterexamples -/

def seg (s : String) : Seg := s.data

def wStat : StatT :=
  { uid := 1, gid := 1, atime := 1, mtime := 2, ctime := 3, btime := none }

def wDirInfo : FileInfo :=
  { type := .dir, size := 64, perm := 0o755, sys := some wStat, content := none }

def wNoteInfo : FileInfo :=
  { type := .file, size := 5, perm := 0o644,
    sys := some { uid := 5, gid := 0, atime := 1, mtime := 2, ctime := 3,
                  btime := some 4 },
    content := some [104, 105] }

def wLinkInfo : FileInfo :=
  { type := .symlink [seg "r", seg "note"], size := 8, perm := 0o777,
    sys := none, content := none }

def wOutInfo : FileInfo :=
  { type := .file, size := 9, perm := 0o644, sys := none, content := some [1] }

def wLeakInfo : FileInfo :=
  { type := .symlink [seg "out", seg "x"], size := 8, perm := 0o777,
    sys := none, content := none }

def wHopInfo : FileInfo :=
  { type := .symlink [seg "r", seg "leak"], size := 8, perm := 0o777,
    sys := none, content := none }

/-- A root directory `/r` holding a file, a symlink to it, a symlink escaping
to `/out/x`, and a two-hop symlink chain ending outside. -/
def wFs : Fs :=
  [([seg "r"], wDirInfo),
   ([seg "r", seg "note"], wNoteInfo),
   ([seg "r", seg "link"], wLinkInfo),
   ([seg "r", seg "leak"], wLeakInfo),
   ([seg "r", seg "hop"], wHopInfo),
   ([seg "out", seg "x"], wOutInfo)]

/-- A filesystem with only the safe entries, so directory listing succeeds. -/
def wFsSafe : Fs :=
  [([seg "r"], wDirInfo),
   ([seg "r", seg "note"], wNoteInfo),
   ([seg "r", seg "link"], wLinkInfo),
   ([seg "out", seg "x"], wOutInfo)]

def wEnv : SysEnv :=
  { sniff := fun _ => "text/plain",
    lookupUser := fun n => if n = 1 then some "alice" else none,
    lookupGroup := fun _ => none }

def wRoot : Root := { virtual := "/public", source := [seg "r"] }

def wRootSlash : Root := { virtual := "/", source := [seg "r"] }

def wSvc : Service := { ordered := [wRoot] }

def wSvcSlash : Service := { ordered := [wRootSlash] }

def dummyDescriptor : Descriptor :=
  { root := wRoot, virtualPath := "", relPath := [], name := "",
    kind := "", targetKind := "", absolutePath := [], linkPath := [],
    metadata := emptyMetadata }

/-! ### A characterization of successful `describe` runs -/

/-- Anatomy of every `Descriptor` that `describe` returns: the cleaned
segments, the lstat lookup, the classification, and either the non-symlink
branch or the resolved-and-contained symlink branch. -/
theorem describe_ok_cases {env : SysEnv} {fs : Fs} {root : Root} {rel : String}
    {d : Descriptor} (h : describe env fs root rel = .ok d) :
    ∃ segs info, cleanRelativePath rel = .ok segs ∧
      lookupFs fs (root.source ++ segs) = some info ∧
      d.relPath = segs ∧ d.name = entryName root segs ∧
      d.kind = classify info ∧ d.root = root ∧
      d.virtualPath = joinVirtual root.virtual segs ∧
      d.linkPath = root.source ++ segs ∧
      ((¬ classify info = kindSymlink ∧ d.targetKind = classify info ∧
          d.absolutePath = root.source ++ segs ∧
          d.metadata = metadataFromInfo env fs d info) ∨
        (∃ resolved tInfo,
          classify info = kindSymlink ∧
          evalSymlinks fs (root.source ++ segs) maxLinkHops = .ok resolved ∧
          ensureWithinRoot root.source resolved = .ok () ∧
          lookupFs fs resolved = some tInfo ∧
          d.targetKind = classify tInfo ∧ d.absolutePath = resolved ∧
          d.metadata = metadataFromInfo env fs d tInfo)) := by
  unfold describe at h
  dsimp only at h
  split at h
  · exact absurd h (by simp)
  case _ segs hclean =>
    split at h
    · exact absurd h (by simp)
    case _ info hinfo =>
      refine ⟨segs, info, hclean, hinfo, ?_⟩
      split at h
      case isTrue hsym =>
        split at h
        · exact absurd h (by simp)
        case _ resolved hres =>
          split at h
          · exact absurd h (by simp)
          case _ u hensure =>
            split at h
            · exact absurd h (by simp)
            case _ tInfo htinfo =>
              cases h
              refine ⟨rfl, rfl, rfl, rfl, rfl, rfl,
                Or.inr ⟨resolved, tInfo, hsym, hres, ?_, htinfo, rfl, rfl, rfl⟩⟩
              cases u; exact hensure
      case isFalse hsym =>
        cases h
        exact ⟨rfl, rfl, rfl, rfl, rfl, rfl, Or.inl ⟨hsym, rfl, rfl, rfl⟩⟩

/-! ### C2: any literal `..` segment is rejected with OutsideRoot -/

/-- C2: for every relative path in which any `/`-separated segment equals the
literal `..`, resolution via `describe` fails with `OutsideRoot`, and
`ListDirectory` on any existing root fails with `OutsideRoot` as well — even
when naive normalization would cancel the `..` (e.g. `a/../b`); no such path
yields a Descriptor. -/
theorem C2_literal_dotdot_rejected (env : SysEnv) (fs : Fs) (rel : String)
    (h : hasTraversal rel = true) :
    (∀ root, describe env fs root rel = .error .outsideRoot) ∧
    (∀ svc virtual root, lookupRoot svc virtual = some root →
        serviceListDirectory env fs svc virtual rel = .error .outsideRoot) := by
  have hclean : cleanRelativePath rel = .error .outsideRoot := by
    simp [cleanRelativePath, h]
  refine ⟨fun root => ?_, fun svc virtual root hl => ?_⟩
  · simp [describe, hclean]
  · simp [serviceListDirectory, hl, listDirectoryRoot, hclean]

/-- Witness for C2 at the concrete path `a/../b`, which naive normalization
would cancel to `b` inside the root. -/
theorem C2_witness :
    hasTraversal "a/../b" = true ∧
    describe wEnv wFs wRoot "a/../b" = .error .outsideRoot :=
  ⟨by decide, (C2_literal_dotdot_rejected wEnv wFs "a/../b" (by decide)).1 wRoot⟩

/-! ### C3: SizeBytes is non-null exactly for pre-resolution kind `file` -/

/-- C3: for every Descriptor produced by `describe`, `SizeBytes` is non-null
iff the descriptor's pre-resolution `Kind` is `file`; it is null for folders
and null for symlinks regardless of the symlink target's kind or size. -/
theorem C3_size_iff_kind_file (env : SysEnv) (fs : Fs) (root : Root)
    (rel : String) (d : Descriptor) (h : describe env fs root rel = .ok d) :
    (d.metadata.sizeBytes.isSome ↔ d.kind = kindFile) ∧
    (d.kind = kindSymlink → d.metadata.sizeBytes = none) ∧
    (d.kind = kindFolder → d.metadata.sizeBytes = none) := by
  obtain ⟨segs, info, _, _, _, _, _, _, _, _, hbr⟩ := describe_ok_cases h
  have hsize : ∃ i, d.metadata.sizeBytes = pointerSize i d.kind := by
    rcases hbr with ⟨_, _, _, hmd⟩ | ⟨res, tInfo, _, _, _, _, _, _, hmd⟩
    · exact ⟨info, by rw [hmd]; simp [metadataFromInfo]⟩
    · exact ⟨tInfo, by rw [hmd]; simp [metadataFromInfo]⟩
  obtain ⟨i, hs⟩ := hsize
  rw [hs]
  unfold pointerSize
  by_cases hk : d.kind = kindFile
  · simp [hk, kindFile, kindFolder, kindSymlink]
  · simp only [hk, if_false]
    refine ⟨by simp [hk], fun _ => trivial, fun _ => trivial⟩

/-- Witness for C3: a symlink descriptor whose target is a 5-byte file still
reports a null size. -/
theorem C3_witness :
    describe wEnv wFs wRoot "link" =
      .ok ((describe wEnv wFs wRoot "link").toOption.getD dummyDescriptor) ∧
    (((describe wEnv wFs wRoot "link").toOption.getD
        dummyDescriptor).metadata.sizeBytes.isSome ↔
      ((describe wEnv wFs wRoot "link").toOption.getD
        dummyDescriptor).kind = kindFile) :=
  ⟨by rfl,
   (C3_size_iff_kind_file wEnv wFs wRoot "link" _ (by rfl)).1⟩

/-! ### C6: MIME assignment -/

/-- `filepath.EvalSymlinks` lands on an existing non-symlink entry. -/
theorem evalSymlinks_ok_lookup {fs : Fs} :
    ∀ (fuel : Nat) (p q : AbsPath), evalSymlinks fs p fuel = .ok q →
      ∃ i, lookupFs fs q = some i ∧ ∀ t, i.type ≠ .symlink t := by
  intro fuel
  induction fuel with
  | zero => intro p q h; exact absurd h (by simp [evalSymlinks])
  | succ n ih =>
    intro p q h
    unfold evalSymlinks at h
    split at h
    case _ info hinfo =>
      split at h
      case _ t ht => exact ih _ _ h
      case _ hnot =>
        cases h
        refine ⟨info, hinfo, fun t ht => ?_⟩
        exact hnot t ht
    · exact absurd h (by simp)

/-- `classify` yields the symlink kind only for symlink entries. -/
theorem classify_eq_symlink {info : FileInfo} :
    classify info = kindSymlink ↔ ∃ t, info.type = .symlink t := by
  unfold classify
  cases info.type <;> simp [kindFile, kindFolder, kindSymlink]

/-- C6 (amended): metadata MIME is keyed on the post-resolution `TargetKind`,
which is never `symlink`: folder targets get the fixed sentinel
`inode/directory`; file targets — including the targets of symlink
descriptors — are content-sniffed over at most the first 512 bytes, with any
open/read failure degrading to the empty string.  The `inode/symlink`
sentinel branch of `mimeFor` is unreachable from `describe`. -/
theorem C6_mime_by_target_kind (env : SysEnv) (fs : Fs) (root : Root)
    (rel : String) (d : Descriptor) (h : describe env fs root rel = .ok d) :
    d.targetKind ≠ kindSymlink ∧
    d.metadata.mimeType = mimeFor env fs d.targetKind d.absolutePath ∧
    (d.targetKind = kindFolder → d.metadata.mimeType = "inode/directory") ∧
    (d.targetKind = kindFile →
      d.metadata.mimeType = fileSniff env fs d.absolutePath) := by
  obtain ⟨segs, info, _, _, _, _, _, _, _, _, hbr⟩ := describe_ok_cases h
  have hmime : d.metadata.mimeType = mimeFor env fs d.targetKind d.absolutePath ∧
      d.targetKind ≠ kindSymlink := by
    rcases hbr with ⟨hnot, htk, _, hmd⟩ | ⟨res, tInfo, _, hres, _, htl, htk, _, hmd⟩
    · exact ⟨by rw [hmd]; simp [metadataFromInfo], by rw [htk]; exact hnot⟩
    · refine ⟨by rw [hmd]; simp [metadataFromInfo], ?_⟩
      obtain ⟨i, hl, hns⟩ := evalSymlinks_ok_lookup maxLinkHops _ _ hres
      rw [htl] at hl
      cases hl
      rw [htk]
      intro hsym
      obtain ⟨t, ht⟩ := classify_eq_symlink.mp hsym
      exact hns t ht
  refine ⟨hmime.2, hmime.1, fun hf => ?_, fun hf => ?_⟩
  · rw [hmime.1, hf]; simp [mimeFor]
  · rw [hmime.1, hf]
    simp [mimeFor, fileSniff, kindFile, kindFolder, kindSymlink]

/-- Witness for C6's amended statement: a symlink to a readable text file is
sniffed through its target. -/
theorem C6_witness :
    describe wEnv wFs wRoot "link" =
      .ok ((describe wEnv wFs wRoot "link").toOption.getD dummyDescriptor) ∧
    ((describe wEnv wFs wRoot "link").toOption.getD
        dummyDescriptor).targetKind ≠ kindSymlink :=
  ⟨by rfl, (C6_mime_by_target_kind wEnv wFs wRoot "link" _ (by rfl)).1⟩

/-- Counterexample to C6 as stated: the `link` descriptor has `Kind` symlink,
yet its MIME is the sniffed content type of the target, not `inode/symlink`. -/
theorem C6_counterexample :
    ((describe wEnv wFs wRoot "link").toOption.map
        (fun d => (d.kind, d.metadata.mimeType))) =
      some (kindSymlink, "text/plain") ∧
    ("text/plain" : String) ≠ "inode/symlink" := by
  refine ⟨by rfl, by decide⟩

/-! ### C7: owner/group name resolution -/

/-- C7 (amended): ownership keeps the `strconvOrEmpty` fallback only when the
name lookup fails: a successful lookup always yields the resolved name; a
failed lookup yields the empty string for id 0 and the decimal string for any
nonzero id.  The same values surface in the extracted `Metadata`. -/
theorem C7_ownership_names (env : SysEnv) (info : FileInfo) (st : StatT)
    (h : info.sys = some st) :
    (ownership env info).1 = st.uid ∧ (ownership env info).2.1 = st.gid ∧
    (∀ u, env.lookupUser st.uid = some u → (ownership env info).2.2.1 = u) ∧
    (env.lookupUser st.uid = none →
      (ownership env info).2.2.1 = strconvOrEmpty st.uid) ∧
    (st.uid = 0 → env.lookupUser st.uid = none →
      (ownership env info).2.2.1 = "") ∧
    (st.uid ≠ 0 → env.lookupUser st.uid = none →
      (ownership env info).2.2.1 = Nat.repr st.uid) ∧
    (∀ g, env.lookupGroup st.gid = some g → (ownership env info).2.2.2 = g) ∧
    (env.lookupGroup st.gid = none →
      (ownership env info).2.2.2 = strconvOrEmpty st.gid) ∧
    (st.gid = 0 → env.lookupGroup st.gid = none →
      (ownership env info).2.2.2 = "") ∧
    (st.gid ≠ 0 → env.lookupGroup st.gid = none →
      (ownership env info).2.2.2 = Nat.repr st.gid) ∧
    (∀ fs desc, (metadataFromInfo env fs desc info).user =
        (ownership env info).2.2.1 ∧
      (metadataFromInfo env fs desc info).group =
        (ownership env info).2.2.2) := by
  unfold ownership
  rw [h]
  cases hu : env.lookupUser st.uid <;> cases hg : env.lookupGroup st.gid <;>
    simp [hu, hg, strconvOrEmpty, metadataFromInfo, ownership, h] <;>
    tauto

/-- Witness for C7's amended statement (gid 0, failed group lookup → empty). -/
theorem C7_witness :
    wNoteInfo.sys = some { uid := 5, gid := 0, atime := 1, mtime := 2,
                           ctime := 3, btime := some 4 } ∧
    (ownership wEnv wNoteInfo).2.2.2 = "" :=
  ⟨rfl,
   (C7_ownership_names wEnv wNoteInfo _ rfl).2.2.2.2.2.2.2.2.1 rfl (by decide)⟩

/-- Counterexample to C7 as stated: uid 5's lookup fails, yet the extracted
user name is the numeric string `"5"`, not the empty string. -/
theorem C7_counterexample :
    wEnv.lookupUser 5 = none ∧
    ((describe wEnv wFs wRoot "note").toOption.map
        (fun d => d.metadata.user)) = some "5" ∧
    ("5" : String) ≠ "" := by
  refine ⟨by decide, by rfl, by decide⟩

/-! ### C10: missing leading slash is normalized by root lookup -/

/-- C10: for every virtual name that does not start with `/`, `Describe` and
`ListDirectory` behave exactly as on the slash-prefixed name. -/
theorem C10_slash_normalization (env : SysEnv) (fs : Fs) (svc : Service)
    (virtual rel : String) (h : startsWithSlash virtual = false) :
    serviceDescribe env fs svc virtual rel =
      serviceDescribe env fs svc ("/" ++ virtual) rel ∧
    serviceListDirectory env fs svc virtual rel =
      serviceListDirectory env fs svc ("/" ++ virtual) rel := by
  have hpre : startsWithSlash ("/" ++ virtual) = true := rfl
  have hlook : lookupRoot svc virtual = lookupRoot svc ("/" ++ virtual) := by
    unfold lookupRoot
    rw [h, hpre]
    simp
  constructor
  · unfold serviceDescribe
    rw [hlook]
  · unfold serviceListDirectory
    rw [hlook]

/-- Witness for C10 at the bare name `public`. -/
theorem C10_witness :
    startsWithSlash "public" = false ∧
    serviceDescribe wEnv wFs wSvc "public" "note" =
      serviceDescribe wEnv wFs wSvc "/public" "note" :=
  ⟨by decide,
   (C10_slash_normalization wEnv wFs wSvc "public" "note" (by decide)).1⟩

/-! ### C8: query-parameter validation -/

set_option maxHeartbeats 2000000 in
/-- C8: `parseListParams` accepts a query iff `page[limit]` is absent or an
integer in `[1, 500]`, `page[offset]` is absent or a non-negative integer, and
`sort` is absent or a single allow-listed field optionally prefixed with `-`
(comma-containing values and unknown fields are rejected); an absent query
yields the defaults: limit 200, offset 0, ascending `name`. -/
theorem C8_parse_params (q : Query) :
    ((∃ p, parseListParams q = .ok p) ↔
      ((q.pageLimit = "" ∨
          ∃ n : Int, atoi q.pageLimit = some n ∧ 1 ≤ n ∧ n ≤ 500) ∧
        (q.pageOffset = "" ∨
          ∃ n : Int, atoi q.pageOffset = some n ∧ 0 ≤ n) ∧
        (q.sort = "" ∨
          (q.sort.data.contains ',' = false ∧
            (if q.sort.data.head? = some '-' then (⟨q.sort.data.tail⟩ : String)
             else q.sort) ∈ validSortFields)))) ∧
    parseListParams { pageLimit := "", pageOffset := "", sort := "" } =
      .ok { limit := 200, offset := 0, sortField := "name",
            descending := false } := by
  refine ⟨?_, by rfl⟩
  unfold parseListParams
  by_cases hL : q.pageLimit = ""
  all_goals by_cases hO : q.pageOffset = ""
  all_goals by_cases hS : q.sort = ""
  all_goals
    simp only [hL, hO, hS, if_true, if_false, reduceIte, maxLimit,
      not_false_iff, not_true, reduceCtorEq]
  all_goals rcases hA : atoi q.pageLimit with _ | n
  all_goals rcases hB : atoi q.pageOffset with _ | m
  all_goals try by_cases h1 : n < 1
  all_goals try by_cases h2 : (500 : Int) < n
  all_goals try by_cases h3 : m < 0
  all_goals
    try by_cases hc : ',' ∈ q.sort.data
  all_goals
    try by_cases hf :
      (if q.sort.data.head? = some '-' then (⟨q.sort.data.tail⟩ : String)
       else q.sort) ∈ validSortFields
  all_goals try simp_all
  all_goals try omega
  all_goals try (simp [atoi] at hA)
  all_goals try (simp [atoi] at hB)
  all_goals try (rw [if_neg (by omega : ¬ m < 0)]; simp)
  all_goals try (rw [if_neg (by omega : ¬ n < 1),
    if_neg (by omega : ¬ (500 : Int) < n)]; simp)
  all_goals try (rw [if_neg (by omega : ¬ m < 0)]; simp)
  all_goals try omega

/-- Witness for C8's acceptance direction at a concrete query. -/
theorem C8_witness :
    ∃ p, parseListParams
        { pageLimit := "10", pageOffset := "3", sort := "-size_bytes" } =
      .ok p :=
  (C8_parse_params
      { pageLimit := "10", pageOffset := "3", sort := "-size_bytes" }).1.mpr
    (by refine ⟨Or.inr ⟨10, by decide, by decide, by decide⟩,
          Or.inr ⟨3, by decide, by decide⟩, Or.inr ⟨by decide, by decide⟩⟩)

/-! ### C5: sort the whole set, then slice the page -/

theorem length_insertCmp (less : α → α → Bool) (x : α) :
    ∀ l : List α, (insertCmp less x l).length = l.length + 1 := by
  intro l
  induction l with
  | nil => rfl
  | cons y ys ih =>
    unfold insertCmp
    split
    · simpa using ih
    · rfl

theorem length_stableSort (less : α → α → Bool) :
    ∀ l : List α, (stableSort less l).length = l.length := by
  intro l
  induction l with
  | nil => rfl
  | cons x xs ih =>
    unfold stableSort
    rw [length_insertCmp, ih]
    rfl

/-- C5: the entire descriptor set is stably sorted first, and the returned
page is the slice `[min(O, N), min(O+L, N))` of the sorted whole: exactly
`min L (N - O)` entries (truncated subtraction), each page element being the
sorted set's element at index `offset + i`. -/
theorem C5_sort_then_paginate (entries : List Descriptor) (field : String)
    (descending : Bool) (limit offset : Nat) :
    (sendCollectionData entries field descending limit offset).length
        = min limit (entries.length - offset) ∧
    ∀ i : Nat,
      i < (sendCollectionData entries field descending limit offset).length →
        (sendCollectionData entries field descending limit offset)[i]? =
          (sortDescriptors entries field descending)[offset + i]? := by
  have hN : (sortDescriptors entries field descending).length
      = entries.length := length_stableSort _ _
  constructor
  · unfold sendCollectionData collectionPage
    simp only [List.length_take, List.length_drop, hN]
    split_ifs <;> omega
  · intro i hi
    have hlen := hi
    unfold sendCollectionData collectionPage at hlen hi ⊢
    simp only [List.length_take, List.length_drop, hN] at hlen
    by_cases hoff : offset > entries.length
    · exfalso
      revert hlen
      split_ifs <;> omega
    · simp only [hN, if_neg hoff] at hi ⊢
      have hik : i < (if offset + limit > entries.length then entries.length
          else offset + limit) - offset := by
        revert hlen
        split_ifs <;> intro <;> omega
      rw [List.getElem?_take_of_lt hik, List.getElem?_drop]

/-- Witness for C5: three entries, limit 2, offset 1. -/
theorem C5_witness :
    (sendCollectionData [dummyDescriptor, dummyDescriptor, dummyDescriptor]
        "name" false 2 1)[0]? =
      (sortDescriptors [dummyDescriptor, dummyDescriptor, dummyDescriptor]
        "name" false)[1 + 0]? :=
  (C5_sort_then_paginate
      [dummyDescriptor, dummyDescriptor, dummyDescriptor] "name" false 2 1).2
    0 (by decide)

/-! ### C4: nullable-field comparators and sort direction -/

theorem mem_insertCmp {less : α → α → Bool} {x z : α} :
    ∀ {l : List α}, z ∈ insertCmp less x l ↔ z = x ∨ z ∈ l := by
  intro l
  induction l with
  | nil => simp [insertCmp]
  | cons y ys ih =>
    unfold insertCmp
    split <;> (simp only [List.mem_cons, ih]; try tauto)

/-- Inserting preserves a pairwise relation when the comparator decides the
relation in both directions and the relation is transitive. -/
theorem pairwise_insertCmp {less : α → α → Bool} {R : α → α → Prop}
    (htrans : ∀ {a b c}, R a b → R b c → R a c)
    (k1 : ∀ a b, less a b = true → R a b)
    (k2 : ∀ a b, less b a = false → R a b) (x : α) :
    ∀ l : List α, l.Pairwise R → (insertCmp less x l).Pairwise R := by
  intro l
  induction l with
  | nil => intro _; simp [insertCmp]
  | cons y ys ih =>
    intro h
    rw [List.pairwise_cons] at h
    obtain ⟨hy, hys⟩ := h
    unfold insertCmp
    split
    case isTrue hyx =>
      rw [List.pairwise_cons]
      refine ⟨fun z hz => ?_, ih hys⟩
      rcases mem_insertCmp.mp hz with rfl | hz
      · exact k1 y z hyx
      · exact hy z hz
    case isFalse hyx =>
      rw [List.pairwise_cons]
      have hxy : R x y := k2 x y (by simpa using hyx)
      refine ⟨fun z hz => ?_, List.Pairwise.cons hy hys⟩
      rcases List.mem_cons.mp hz with rfl | hz
      · exact hxy
      · exact htrans hxy (hy z hz)

/-- The sorted output satisfies the pairwise relation decided by the
comparator. -/
theorem pairwise_stableSort {less : α → α → Bool} {R : α → α → Prop}
    (htrans : ∀ {a b c}, R a b → R b c → R a c)
    (k1 : ∀ a b, less a b = true → R a b)
    (k2 : ∀ a b, less b a = false → R a b) :
    ∀ l : List α, (stableSort less l).Pairwise R := by
  intro l
  induction l with
  | nil => simp [stableSort]
  | cons x xs ih => exact pairwise_insertCmp (R := R) htrans k1 k2 x _ ih

theorem comparePtrTime_eq (a b : Option Int) :
    comparePtrTime a b = comparePtrInt64 a b := by
  cases a <;> cases b <;> rfl

theorem optAsc1 (x y : Option Int) :
    comparePtrInt64 x y = true → y = none → x = none := by
  cases x <;> cases y <;> simp [comparePtrInt64]

theorem optAsc2 (x y : Option Int) :
    comparePtrInt64 y x = false → y = none → x = none := by
  cases x <;> cases y <;> simp [comparePtrInt64]

theorem optDesc1 (x y : Option Int) :
    (!comparePtrInt64 x y) = true → x = none → y = none := by
  cases x <;> cases y <;> simp [comparePtrInt64]

theorem optDesc2 (x y : Option Int) :
    (!comparePtrInt64 y x) = false → x = none → y = none := by
  cases x <;> cases y <;> simp [comparePtrInt64]

/-- Ascending by a nullable field: absent values all precede present ones. -/
theorem sort_asc_nulls_first (f : String) (get : Metadata → Option Int)
    (hless : ∀ a b : Descriptor, descLess f false a b =
      comparePtrInt64 (get a.metadata) (get b.metadata))
    (entries : List Descriptor) :
    (sortDescriptors entries f false).Pairwise
      (fun a b => get b.metadata = none → get a.metadata = none) := by
  apply pairwise_stableSort (fun h1 h2 hc => h1 (h2 hc))
  · intro a b h
    rw [hless] at h
    exact optAsc1 _ _ h
  · intro a b h
    rw [hless] at h
    exact optAsc2 _ _ h

/-- Descending by a nullable field: absent values all land last. -/
theorem sort_desc_nulls_last (f : String) (get : Metadata → Option Int)
    (hless : ∀ a b : Descriptor, descLess f false a b =
      comparePtrInt64 (get a.metadata) (get b.metadata))
    (entries : List Descriptor) :
    (sortDescriptors entries f true).Pairwise
      (fun a b => get a.metadata = none → get b.metadata = none) := by
  have hd : ∀ a b : Descriptor, descLess f true a b =
      !comparePtrInt64 (get a.metadata) (get b.metadata) := by
    intro a b
    rw [← hless a b]
    simp [descLess]
  apply pairwise_stableSort (fun h1 h2 hc => h2 (h1 hc))
  · intro a b h
    rw [hd] at h
    exact optDesc1 _ _ h
  · intro a b h
    rw [hd] at h
    exact optDesc2 _ _ h

/-- Example descriptor for the sorting example in the spec. -/
def exDesc (nm : String) (sz : Option Int) : Descriptor :=
  { root := wRoot, virtualPath := "/public/" ++ nm, relPath := [nm.data],
    name := nm, kind := kindFile, targetKind := kindFile,
    absolutePath := [seg "r", nm.data], linkPath := [seg "r", nm.data],
    metadata := { emptyMetadata with name := nm, sizeBytes := sz } }

def exDescA : Descriptor := exDesc "A" none
def exDescB : Descriptor := exDesc "B" (some 5)
def exDescC : Descriptor := exDesc "C" (some 2)

/-- C4: for every nullable sort field, ascending places absent values before
all present values; the descending comparator is the pointwise boolean
negation of the ascending one, so absent values land last in descending
order; on `A(size=null), B(size=5), C(size=2)` ascending yields `[A, C, B]`
and descending `[B, C, A]`. -/
theorem C4_nullable_sort_direction :
    (∀ f ∈ nullableSortFields, ∀ entries : List Descriptor,
        (sortDescriptors entries f false).Pairwise
          (fun a b => nullableFieldVal f b.metadata = none →
            nullableFieldVal f a.metadata = none)) ∧
    (∀ (f : String) (a b : Descriptor),
        descLess f true a b = !(descLess f false a b)) ∧
    (∀ f ∈ nullableSortFields, ∀ entries : List Descriptor,
        (sortDescriptors entries f true).Pairwise
          (fun a b => nullableFieldVal f a.metadata = none →
            nullableFieldVal f b.metadata = none)) ∧
    (sortDescriptors [exDescA, exDescB, exDescC] "size_bytes" false).map
        (fun d => d.metadata.name) = ["A", "C", "B"] ∧
    (sortDescriptors [exDescA, exDescB, exDescC] "size_bytes" true).map
        (fun d => d.metadata.name) = ["B", "C", "A"] := by
  refine ⟨?_, ?_, ?_, by decide, by decide⟩
  · intro f hf entries
    fin_cases hf
    · exact sort_asc_nulls_first "size_bytes" _ (fun a b => rfl) entries
    · exact sort_asc_nulls_first "accessed_at" _
        (fun a b => comparePtrTime_eq _ _) entries
    · exact sort_asc_nulls_first "modified_at" _
        (fun a b => comparePtrTime_eq _ _) entries
    · exact sort_asc_nulls_first "changed_at" _
        (fun a b => comparePtrTime_eq _ _) entries
    · exact sort_asc_nulls_first "born_at" _
        (fun a b => comparePtrTime_eq _ _) entries
  · intro f a b
    simp [descLess]
  · intro f hf entries
    fin_cases hf
    · exact sort_desc_nulls_last "size_bytes" _ (fun a b => rfl) entries
    · exact sort_desc_nulls_last "accessed_at" _
        (fun a b => comparePtrTime_eq _ _) entries
    · exact sort_desc_nulls_last "modified_at" _
        (fun a b => comparePtrTime_eq _ _) entries
    · exact sort_desc_nulls_last "changed_at" _
        (fun a b => comparePtrTime_eq _ _) entries
    · exact sort_desc_nulls_last "born_at" _
        (fun a b => comparePtrTime_eq _ _) entries

/-- Witness for C4 at the field `size_bytes` on a two-element list. -/
theorem C4_witness :
    (sortDescriptors [exDescB, exDescA] "size_bytes" false).Pairwise
      (fun a b => nullableFieldVal "size_bytes" b.metadata = none →
        nullableFieldVal "size_bytes" a.metadata = none) :=
  C4_nullable_sort_direction.1 "size_bytes" (by decide) [exDescB, exDescA]

/-! ### C1: containment of resolved paths -/

theorem dropCommonPre_nil_iff :
    ∀ r t : AbsPath, (dropCommonPre r t).1 = [] ↔ r <+: t := by
  intro r
  induction r with
  | nil => intro t; simp [dropCommonPre]
  | cons x rs ih =>
    intro t
    cases t with
    | nil => simp [dropCommonPre]
    | cons y ts =>
      unfold dropCommonPre
      by_cases hxy : x = y
      · subst hxy
        rw [if_pos rfl, ih ts]
        exact ⟨fun hp => List.cons_prefix_cons.mpr ⟨rfl, hp⟩,
          fun hp => (List.cons_prefix_cons.mp hp).2⟩
      · rw [if_neg hxy]
        constructor
        · intro hc; simp at hc
        · intro hp; exact absurd (List.cons_prefix_cons.mp hp).1 hxy

/-- A passed containment check means the resolved target extends the root. -/
theorem ensure_ok_prefix {root target : AbsPath}
    (h : ensureWithinRoot root target = .ok ()) : root <+: target := by
  unfold ensureWithinRoot at h
  split at h
  · exact absurd h (by simp)
  case isFalse hh =>
    rw [← dropCommonPre_nil_iff]
    rcases hu : (dropCommonPre root target).1 with _ | ⟨u, us⟩
    · rfl
    · exfalso
      apply hh
      unfold relSegments
      rw [hu]
      rfl

/-- A resolved target not extending the root fails the containment check. -/
theorem ensure_err_of_not_prefix {root target : AbsPath}
    (h : ¬ root <+: target) :
    ensureWithinRoot root target = .error .outsideRoot := by
  rw [← dropCommonPre_nil_iff] at h
  rcases hu : (dropCommonPre root target).1 with _ | ⟨u, us⟩
  · exact absurd hu h
  · unfold ensureWithinRoot relSegments
    rw [hu]
    rfl

/-- C1: every Descriptor's `AbsolutePath` extends (or equals) `Root.Source`,
the symlink case being checked after full chain resolution; and a symlink
whose fully-resolved target (through any number of hops) falls outside the
root makes `describe` fail with `OutsideRoot`. -/
theorem C1_containment (env : SysEnv) (fs : Fs) :
    (∀ (root : Root) (rel : String) (d : Descriptor),
        describe env fs root rel = .ok d →
        root.source <+: d.absolutePath) ∧
    (∀ (root : Root) (rel : String) (segs : List Seg) (info : FileInfo)
        (t resolved : AbsPath),
        cleanRelativePath rel = .ok segs →
        lookupFs fs (root.source ++ segs) = some info →
        info.type = .symlink t →
        evalSymlinks fs (root.source ++ segs) maxLinkHops = .ok resolved →
        ¬ root.source <+: resolved →
        describe env fs root rel = .error .outsideRoot) := by
  constructor
  · intro root rel d h
    obtain ⟨segs, info, _, _, _, _, _, _, _, _, hbr⟩ := describe_ok_cases h
    rcases hbr with ⟨_, _, habs, _⟩ | ⟨res, tInfo, _, _, hens, _, _, habs, _⟩
    · rw [habs]
      exact List.prefix_append _ _
    · rw [habs]
      exact ensure_ok_prefix hens
  · intro root rel segs info t resolved hclean hinfo ht hres hnp
    have hk : classify info = kindSymlink := by simp [classify, ht]
    have hens := ensure_err_of_not_prefix hnp
    unfold describe
    rw [hclean]
    simp only [hinfo, hk, hres, hens, reduceIte]

/-- Witness for C1: `note` resolves inside the root; the two-hop symlink
chain `hop → leak → /out/x` is rejected with `OutsideRoot`. -/
theorem C1_witness :
    (wRoot.source <+:
      ((describe wEnv wFs wRoot "note").toOption.getD
        dummyDescriptor).absolutePath) ∧
    describe wEnv wFs wRoot "hop" = .error .outsideRoot :=
  ⟨(C1_containment wEnv wFs).1 wRoot "note" _ (by rfl),
   (C1_containment wEnv wFs).2 wRoot "hop" [seg "hop"] wHopInfo
     [seg "r", seg "leak"] [seg "out", seg "x"] (by rfl) (by rfl) (by rfl)
     (by rfl) (by decide)⟩

/-! ### Round-trip lemmas between segments and relative-path strings -/

theorem splitSlash_ne_nil : ∀ cs : List Char, splitSlash cs ≠ [] := by
  intro cs
  induction cs with
  | nil => simp [splitSlash]
  | cons c cs ih =>
    unfold splitSlash
    split
    · simp
    · split <;> simp

theorem splitSlash_no_slash :
    ∀ (cs : List Char), ∀ s ∈ splitSlash cs, '/' ∉ s := by
  intro cs
  induction cs with
  | nil => intro s hs; simp [splitSlash] at hs; simp [hs]
  | cons c cs ih =>
    intro s hs
    unfold splitSlash at hs
    rcases hsp : splitSlash cs with _ | ⟨t, ts⟩
    · exact absurd hsp (splitSlash_ne_nil cs)
    · rw [hsp] at hs
      dsimp only at hs
      by_cases hc : c = '/'
      · rw [if_pos hc] at hs
        rcases List.mem_cons.mp hs with rfl | hs
        · simp
        · exact ih s (hsp ▸ hs)
      · rw [if_neg hc] at hs
        rcases List.mem_cons.mp hs with rfl | hs
        · intro hmem
          rcases List.mem_cons.mp hmem with rfl | hmem
          · exact hc rfl
          · exact ih t (hsp ▸ List.mem_cons_self t ts) hmem
        · exact ih s (hsp ▸ List.mem_cons.mpr (Or.inr hs))

theorem pathClean_aux_mem {s : Seg} :
    ∀ (segs : List Seg) (acc : List Seg),
      s ∈ segs.foldl
        (fun acc seg =>
          if seg = [] ∨ seg = ['.'] then acc
          else if seg = ['.', '.'] then acc.dropLast
          else acc ++ [seg]) acc →
      s ∈ acc ∨ (s ∈ segs ∧ s ≠ [] ∧ s ≠ ['.'] ∧ s ≠ ['.', '.']) := by
  intro segs
  induction segs with
  | nil => intro acc h; exact Or.inl h
  | cons seg rest ih =>
    intro acc h
    rw [List.foldl_cons] at h
    rcases ih _ h with hacc | hrest
    · by_cases h1 : seg = [] ∨ seg = ['.']
      · rw [if_pos h1] at hacc
        exact Or.inl hacc
      · rw [if_neg h1] at hacc
        by_cases h2 : seg = ['.', '.']
        · rw [if_pos h2] at hacc
          exact Or.inl (List.dropLast_sublist _ |>.mem hacc)
        · rw [if_neg h2] at hacc
          rcases List.mem_append.mp hacc with hacc | hs
          · exact Or.inl hacc
          · rcases List.mem_singleton.mp hs with rfl
            push_neg at h1
            exact Or.inr ⟨List.mem_cons_self _ _, h1.1, h1.2, h2⟩
    · exact Or.inr ⟨List.mem_cons.mpr (Or.inr hrest.1), hrest.2⟩

/-- Every segment of a cleaned relative path is a valid directory-entry name
apart from possibly containing a slash (excluded separately). -/
theorem pathClean_mem {s : Seg} {segs : List Seg} (h : s ∈ pathClean segs) :
    s ∈ segs ∧ s ≠ [] ∧ s ≠ ['.'] ∧ s ≠ ['.', '.'] := by
  rcases pathClean_aux_mem segs [] h with hacc | hgood
  · simp at hacc
  · exact hgood

theorem cleanSegs_valid {rel : String} {segs : List Seg}
    (h : cleanRelativePath rel = .ok segs) : ∀ s ∈ segs, ValidSeg s := by
  intro s hs
  unfold cleanRelativePath at h
  split at h
  · exact absurd h (by simp)
  · dsimp only at h
    split at h
    · exact absurd h (by simp)
    · cases h
      obtain ⟨hmemsplit, h1, h2, h3⟩ := pathClean_mem hs
      exact ⟨h1, splitSlash_no_slash _ s hmemsplit, h2, h3⟩

theorem pathClean_of_valid :
    ∀ segs : List Seg, (∀ s ∈ segs, ValidSeg s) → pathClean segs = segs := by
  have aux : ∀ (segs acc : List Seg), (∀ s ∈ segs, ValidSeg s) →
      segs.foldl
        (fun acc seg =>
          if seg = [] ∨ seg = ['.'] then acc
          else if seg = ['.', '.'] then acc.dropLast
          else acc ++ [seg]) acc = acc ++ segs := by
    intro segs
    induction segs with
    | nil => intro acc _; simp
    | cons seg rest ih =>
      intro acc hv
      obtain ⟨h1, _, h3, h4⟩ := hv seg (List.mem_cons_self _ _)
      rw [List.foldl_cons, if_neg (by tauto), if_neg h4,
        ih _ (fun s hs => hv s (List.mem_cons.mpr (Or.inr hs)))]
      simp
  intro segs hv
  unfold pathClean
  rw [aux segs [] hv]
  rfl

theorem splitSlash_append {a : List Char} (ha : '/' ∉ a) :
    ∀ {cs h t}, splitSlash cs = h :: t →
      splitSlash (a ++ cs) = (a ++ h) :: t := by
  induction a with
  | nil => intro cs h t hcs; simpa using hcs
  | cons c a ih =>
    intro cs h t hcs
    have hc : c ≠ '/' := fun hh => ha (hh ▸ List.mem_cons_self c a)
    have ha2 : '/' ∉ a := fun hh => ha (List.mem_cons.mpr (Or.inr hh))
    have hrec := ih ha2 hcs
    show splitSlash (c :: (a ++ cs)) = _
    unfold splitSlash
    rw [hrec]
    dsimp only
    rw [if_neg hc]
    rfl

theorem splitSlash_charJoin :
    ∀ segs : List Seg, (∀ s ∈ segs, ValidSeg s) → segs ≠ [] →
      splitSlash (charJoin segs) = segs := by
  intro segs
  induction segs with
  | nil => intro _ hne; exact absurd rfl hne
  | cons s rest ih =>
    intro hv _
    obtain ⟨_, hs2, _, _⟩ := hv s (List.mem_cons_self _ _)
    cases rest with
    | nil =>
      have h0 : splitSlash ([] : List Char) = [] :: [] := rfl
      have hone := splitSlash_append hs2 h0
      simp only [List.append_nil] at hone
      exact hone
    | cons t ts =>
      show splitSlash (s ++ '/' :: charJoin (t :: ts)) = s :: t :: ts
      have hrest := ih (fun z hz => hv z (List.mem_cons.mpr (Or.inr hz)))
        (by simp)
      rcases hsp : splitSlash (charJoin (t :: ts)) with _ | ⟨u, us⟩
      · exact absurd hsp (splitSlash_ne_nil _)
      · have hslash : splitSlash ('/' :: charJoin (t :: ts)) =
            [] :: u :: us := by
          unfold splitSlash
          rw [hsp]
          rfl
        rw [splitSlash_append hs2 hslash, List.append_nil]
        rw [hsp] at hrest
        rw [hrest]

/-- Rendering valid clean segments and re-cleaning them is the identity. -/
theorem cleanRelativePath_segsToRel {segs : List Seg}
    (hv : ∀ s ∈ segs, ValidSeg s) :
    cleanRelativePath (segsToRel segs) = .ok segs := by
  cases hsegs : segs with
  | nil => rfl
  | cons s rest =>
    subst hsegs
    have hsplit : splitSlash (charJoin (s :: rest)) = s :: rest :=
      splitSlash_charJoin _ hv (by simp)
    have hch : (segsToRel (s :: rest)).data = charJoin (s :: rest) := rfl
    unfold cleanRelativePath hasTraversal
    rw [hch, hsplit]
    have hnotrav : (s :: rest).any (fun part => part = ['.', '.']) = false := by
      rw [List.any_eq_false]
      intro z hz
      obtain ⟨_, _, _, h4⟩ := hv z hz
      simpa using h4
    rw [hnotrav]
    rw [pathClean_of_valid _ hv]
    have hhead : (s :: rest).head? ≠ some ['.', '.'] := by
      obtain ⟨_, _, _, h4⟩ := hv s (List.mem_cons_self _ _)
      simp [h4]
    rw [if_neg (by simp [hnotrav]), if_neg hhead]

/-- Directory entries read from a well-formed filesystem are valid names. -/
theorem readDir_valid {fs : Fs} {p : AbsPath} (hfs : ValidFs fs) :
    ∀ n ∈ readDir fs p, ValidSeg n := by
  intro n hn
  unfold readDir at hn
  rw [List.mem_filterMap] at hn
  obtain ⟨e, he, heq⟩ := hn
  split at heq
  case _ m hm =>
    split at heq
    · cases heq
      exact hfs e he n (List.mem_of_getLast?_eq_some hm)
    · exact absurd heq (by simp)
  · exact absurd heq (by simp)

/-! ### C9: root-listing modes of the collection endpoint -/

/-- Children produced by the listing loop are named by their own directory
entry, never by the root's `/` display name. -/
theorem listChildren_names {env : SysEnv} {fs : Fs} {root : Root}
    {relClean : List Seg} (hrel : ∀ s ∈ relClean, ValidSeg s) :
    ∀ names : List Seg, (∀ n ∈ names, ValidSeg n) →
      ∀ ds, listChildren env fs root relClean names = .ok ds →
        ∀ d ∈ ds, d.name ≠ "/" := by
  intro names
  induction names with
  | nil =>
    intro _ ds h d hd
    unfold listChildren at h
    cases h
    simp at hd
  | cons n ns ih =>
    intro hv ds h d hd
    unfold listChildren at h
    split at h
    · exact absurd h (by simp)
    case _ d0 hdesc =>
      split at h
      · exact absurd h (by simp)
      case _ ds0 hrec =>
        cases h
        have hvn : ValidSeg n := hv n (List.mem_cons_self _ _)
        rcases List.mem_cons.mp hd with rfl | hd0
        · obtain ⟨segs, info, hclean, _, _, hname, _⟩ :=
            describe_ok_cases hdesc
          have hvseq : ∀ s ∈ relClean ++ [n], ValidSeg s := by
            intro z hz
            rcases List.mem_append.mp hz with hz | hz
            · exact hrel z hz
            · rcases List.mem_singleton.mp hz with rfl
              exact hvn
          have hclean2 := cleanRelativePath_segsToRel hvseq
          rw [hclean2] at hclean
          have hsegs : relClean ++ [n] = segs := by
            exact Except.ok.inj hclean
          rw [hname, ← hsegs]
          unfold entryName
          rw [List.getLast?_concat]
          intro heq
          have hdata : n = ['/'] := congrArg String.data heq
          exact hvn.2.1 (hdata ▸ List.mem_cons_self '/' [])
        · exact ih (fun z hz => hv z (List.mem_cons.mpr (Or.inr hz)))
            ds0 hrec d hd0

/-- `ListRoots` produces one descriptor per configured root, in order. -/
theorem listRootsSvc_spec (env : SysEnv) (fs : Fs) :
    ∀ (roots : List Root) (ds : List Descriptor),
      listRootsSvc env fs roots = .ok ds →
      ds.length = roots.length ∧
      ∀ i (h1 : i < roots.length) (h2 : i < ds.length),
        describe env fs (roots.get ⟨i, h1⟩) "" = .ok (ds.get ⟨i, h2⟩) := by
  intro roots
  induction roots with
  | nil =>
    intro ds h
    unfold listRootsSvc at h
    cases h
    exact ⟨rfl, fun i h1 _ => absurd h1 (by simp)⟩
  | cons r rs ih =>
    intro ds h
    unfold listRootsSvc at h
    split at h
    · exact absurd h (by simp)
    case _ d0 hdesc =>
      split at h
      · exact absurd h (by simp)
      case _ ds0 hrec =>
        cases h
        obtain ⟨hlen, hpt⟩ := ih ds0 hrec
        refine ⟨by simp [hlen], fun i h1 h2 => ?_⟩
        cases i with
        | zero => exact hdesc
        | succ j =>
          exact hpt j (by simpa using h1) (by simpa using h2)

/-- The single-slash-root configuration, destructured. -/
theorem single_slash_shape {svc : Service}
    (h : hasSingleRootSlash svc = true) :
    ∃ r, svc.ordered = [r] ∧ r.virtual = "/" := by
  unfold hasSingleRootSlash at h
  rcases hord : svc.ordered with _ | ⟨r, rest⟩
  · rw [hord] at h; simp at h
  · cases rest with
    | nil =>
      rw [hord] at h
      simp only [List.length_cons, List.length_nil, List.head?_cons,
        Option.map_some, Bool.and_eq_true, beq_iff_eq] at h
      exact ⟨r, rfl, Option.some.inj (by simpa using h.2)⟩
    | cons r2 rest2 => rw [hord] at h; simp at h

/-- A root directory resolves to a folder descriptor. -/
theorem describe_root_kind {env : SysEnv} {fs : Fs} {root : Root}
    {d : Descriptor} {info : FileInfo} (h : describe env fs root "" = .ok d)
    (hl : lookupFs fs root.source = some info) (ht : info.type = .dir) :
    d.kind = kindFolder := by
  obtain ⟨segs, info0, hclean, hinfo, _, _, hkind, _⟩ := describe_ok_cases h
  have hc0 : cleanRelativePath "" = .ok ([] : List Seg) := rfl
  rw [hc0] at hclean
  have hsegs : ([] : List Seg) = segs := Except.ok.inj hclean
  rw [← hsegs, List.append_nil, hl] at hinfo
  have : info = info0 := Option.some.inj hinfo
  rw [hkind, ← this]
  simp [classify, ht]

/-- C9: with exactly one root whose virtual name is `/`, the top-level
collection endpoint lists that root's directory contents directly — and (for
a well-formed filesystem) no returned entry is named `/`; in every other
configuration it returns one Descriptor per configured root, in order, each a
folder when its source is a directory. -/
theorem C9_root_listing_modes (env : SysEnv) (fs : Fs) (svc : Service) :
    (hasSingleRootSlash svc = true →
        listRootsEndpoint env fs svc = serviceListDirectory env fs svc "/" "" ∧
        (ValidFs fs → ∀ ds, listRootsEndpoint env fs svc = .ok ds →
            ∀ d ∈ ds, d.name ≠ "/")) ∧
    (hasSingleRootSlash svc = false →
        listRootsEndpoint env fs svc = listRootsSvc env fs svc.ordered ∧
        ∀ ds, listRootsSvc env fs svc.ordered = .ok ds →
          ds.length = svc.ordered.length ∧
          ∀ i (h1 : i < svc.ordered.length) (h2 : i < ds.length),
            describe env fs (svc.ordered.get ⟨i, h1⟩) "" =
              .ok (ds.get ⟨i, h2⟩) ∧
            ∀ info, lookupFs fs (svc.ordered.get ⟨i, h1⟩).source =
                some info → info.type = .dir →
              (ds.get ⟨i, h2⟩).kind = kindFolder) := by
  constructor
  · intro hsingle
    have hmode : listRootsEndpoint env fs svc =
        serviceListDirectory env fs svc "/" "" := by
      unfold listRootsEndpoint
      rw [if_pos hsingle]
    refine ⟨hmode, fun hfs ds hds d hd => ?_⟩
    obtain ⟨r, hord, hvr⟩ := single_slash_shape hsingle
    rw [hmode] at hds
    have hlook : lookupRoot svc "/" = some r := by
      unfold lookupRoot
      rw [hord]
      simp [startsWithSlash, List.find?, hvr]
    unfold serviceListDirectory at hds
    rw [hlook] at hds
    unfold listDirectoryRoot at hds
    have hc0 : cleanRelativePath "" = .ok ([] : List Seg) := rfl
    rw [hc0] at hds
    dsimp only at hds
    split at hds
    · exact absurd hds (by simp)
    case _ parent hparent =>
      split at hds
      · exact listChildren_names (fun z hz => absurd hz (by simp)) _
          (readDir_valid hfs) ds hds d hd
      · exact absurd hds (by simp)
  · intro hnot
    have hmode : listRootsEndpoint env fs svc =
        listRootsSvc env fs svc.ordered := by
      unfold listRootsEndpoint
      rw [if_neg (by simp [hnot])]
    refine ⟨hmode, fun ds hds => ?_⟩
    obtain ⟨hlen, hpt⟩ := listRootsSvc_spec env fs svc.ordered ds hds
    refine ⟨hlen, fun i h1 h2 => ⟨hpt i h1 h2, fun info hl ht => ?_⟩⟩
    exact describe_root_kind (hpt i h1 h2) hl ht

/-- Witness for C9 in both modes, on concrete services over the safe
fixture filesystem. -/
theorem C9_witness :
    (listRootsEndpoint wEnv wFsSafe wSvcSlash =
        serviceListDirectory wEnv wFsSafe wSvcSlash "/" "") ∧
    (∀ d ∈ ((listRootsEndpoint wEnv wFsSafe wSvcSlash).toOption.getD []),
        d.name ≠ "/") ∧
    (listRootsEndpoint wEnv wFsSafe wSvc =
        listRootsSvc wEnv wFsSafe wSvc.ordered) :=
  ⟨((C9_root_listing_modes wEnv wFsSafe wSvcSlash).1 (by decide)).1,
   ((C9_root_listing_modes wEnv wFsSafe wSvcSlash).1 (by decide)).2
     (by decide) _ (by rfl),
   ((C9_root_listing_modes wEnv wFsSafe wSvc).2 (by decide)).1⟩

end DendritePulse
